import Mathlib

/-!
Shallow embedding of the `leaves_bm` Lattice-Boltzmann core
(`src/lbm.rs`, `src/math.rs`) in Lean 4.

Modelling conventions:
* The Rust scalar `Float` (`f32`) is modelled by `ℚ`: the algebraic claims
  about the scheme concern the exact arithmetic the formulas denote.  For the
  one claim that is specifically about IEEE non-finite values (division by a
  zero density), a separate scalar model `F32` tracks finiteness explicitly.
* Dense per-cell arrays (`PacketDistribution`, `Field`) are modelled as total
  functions out of the validated index type `Bound3`; `get` is application
  and an element-wise store is `Function.update`.
* `Simulation::stream` writes each target cell through a wrapped index; it is
  embedded literally as a left fold of single-cell updates over the nested
  `x`/`y`/`z` loop order, not as a closed-form reindexing.
-/

namespace LBM

/-- `math.rs::lerp`: `b * mix + a * (1.0 - mix)`. -/
def lerp (a b mix : ℚ) : ℚ := b * mix + a * (1 - mix)

/-- `math.rs::Int3`: an integer 3-vector. -/
structure Int3 where
  x : ℤ
  y : ℤ
  z : ℤ
deriving DecidableEq, Repr

/-- `Int3::ZERO`. -/
def Int3.zero : Int3 := ⟨0, 0, 0⟩

/-- `impl Add for Int3`: componentwise addition. -/
def Int3.add (a b : Int3) : Int3 := ⟨a.x + b.x, a.y + b.y, a.z + b.z⟩

/-- Componentwise negation (used to invert a streaming step). -/
def Int3.neg (a : Int3) : Int3 := ⟨-a.x, -a.y, -a.z⟩

/-- `math.rs::Vec3`: a 3-vector of scalars. -/
structure Vec3 where
  x : ℚ
  y : ℚ
  z : ℚ
deriving DecidableEq, Repr

/-- `Vec3::ZERO`, also `Default for Vec3`. -/
def Vec3.zero : Vec3 := ⟨0, 0, 0⟩

/-- `Vec3::dot`. -/
def Vec3.dot (a b : Vec3) : ℚ := a.x * b.x + a.y * b.y + a.z * b.z

/-- `impl Add for Vec3`. -/
def Vec3.add (a b : Vec3) : Vec3 := ⟨a.x + b.x, a.y + b.y, a.z + b.z⟩

/-- `impl Mul<Vec3> for Float`: scalar times vector. -/
def Vec3.scale (c : ℚ) (v : Vec3) : Vec3 := ⟨c * v.x, c * v.y, c * v.z⟩

/-- `impl Div<Float> for Vec3`: componentwise division by a scalar. -/
def Vec3.divScalar (v : Vec3) (c : ℚ) : Vec3 := ⟨v.x / c, v.y / c, v.z / c⟩

/-- `impl From<Int3> for Vec3`. -/
def Int3.toVec3 (v : Int3) : Vec3 := ⟨(v.x : ℚ), (v.y : ℚ), (v.z : ℚ)⟩

instance : Zero Vec3 := ⟨Vec3.zero⟩

instance : Add Vec3 := ⟨Vec3.add⟩

instance : AddCommMonoid Vec3 where
  add_assoc a b c := by
    show Vec3.add (Vec3.add a b) c = Vec3.add a (Vec3.add b c)
    simp only [Vec3.add, Vec3.mk.injEq]
    exact ⟨by ring, by ring, by ring⟩
  zero_add a := by
    show Vec3.add Vec3.zero a = a
    simp only [Vec3.add, Vec3.zero, zero_add]
  add_zero a := by
    show Vec3.add a Vec3.zero = a
    simp only [Vec3.add, Vec3.zero, add_zero]
  add_comm a b := by
    show Vec3.add a b = Vec3.add b a
    simp only [Vec3.add, Vec3.mk.injEq]
    exact ⟨by ring, by ring, by ring⟩
  nsmul := nsmulRec
  nsmul_zero := fun _ => rfl
  nsmul_succ := fun _ _ => rfl

/-- `math.rs::Bound3`: a validated grid index, each coordinate within its
axis bound. -/
structure Bound3 (X Y Z : ℕ) where
  x : Fin X
  y : Fin Y
  z : Fin Z
deriving DecidableEq

instance (X Y Z : ℕ) : Fintype (Bound3 X Y Z) :=
  Fintype.ofEquiv (Fin X × Fin Y × Fin Z)
    { toFun := fun p => ⟨p.1, p.2.1, p.2.2⟩
      invFun := fun b => (b.x, b.y, b.z)
      left_inv := fun _ => rfl
      right_inv := fun _ => rfl }

/-- View a validated index as an unrestricted integer vector (the implicit
coercion in `(loc + direction)` in `Simulation::stream`). -/
def Bound3.toInt3 {X Y Z : ℕ} (b : Bound3 X Y Z) : Int3 :=
  ⟨(b.x : ℤ), (b.y : ℤ), (b.z : ℤ)⟩

/-- One axis of `Int3::wrap`: Rust `i32::rem_euclid` into `Fin n`. -/
def wrapFin (n : ℕ) [NeZero n] (a : ℤ) : Fin n :=
  ⟨(a % (n : ℤ)).toNat, by
    have hn : (0 : ℤ) < (n : ℤ) := by exact_mod_cast Nat.pos_of_ne_zero (NeZero.ne n)
    have h1 := Int.emod_nonneg a (ne_of_gt hn)
    have h2 := Int.emod_lt_of_pos a hn
    omega⟩

/-- `math.rs::Int3::wrap`: periodic wrap into the grid, per axis, by
`rem_euclid` with no branching. -/
def Int3.wrap {X Y Z : ℕ} [NeZero X] [NeZero Y] [NeZero Z] (v : Int3) : Bound3 X Y Z :=
  ⟨wrapFin X v.x, wrapFin Y v.y, wrapFin Z v.z⟩

/-- One axis of `math.rs::Vec3::wrap`: the exact-arithmetic content of Rust
`f32::rem_euclid`, `a - n * ⌊a / n⌋`. -/
def remEuclidQ (a n : ℚ) : ℚ := a - n * ⌊a / n⌋

/-- `math.rs::Vec3::wrap`: periodic wrap of a continuous position. -/
def Vec3.wrap (v : Vec3) (bounds : ℕ × ℕ × ℕ) : Vec3 :=
  ⟨remEuclidQ v.x bounds.1, remEuclidQ v.y bounds.2.1, remEuclidQ v.z bounds.2.2⟩

/-- `lbm.rs::PacketDistribution`: one scalar per grid cell, for one
direction; `get` is function application. -/
abbrev PacketDistribution (X Y Z : ℕ) := Bound3 X Y Z → ℚ

/-- `lbm.rs::Lattice`, flattened along its canonical iteration order
`once(q0).chain(q1).chain(q2).enumerate()`: distribution `i` of 19, with
`Lattice.direction i` and `Lattice.weights i` attached exactly as in
`Lattice::iter` / `Lattice::iter_mut`. -/
abbrev Lattice (X Y Z : ℕ) := Fin 19 → PacketDistribution X Y Z

/-- The `sign` helper inside `lbm.rs::Lattice::direction`: `+1` on even,
`-1` on odd. -/
def dirSign (v : ℕ) : ℤ := if v % 2 = 0 then 1 else -1

/-- `lbm.rs::Lattice::direction`: the D3Q19 direction for flat index `i`. -/
def Lattice.direction (i : Fin 19) : Int3 :=
  if i.val = 0 then ⟨0, 0, 0⟩
  else if i.val < 7 then
    let a := dirSign i.val
    if i.val < 3 then ⟨a, 0, 0⟩
    else if i.val < 5 then ⟨0, a, 0⟩
    else ⟨0, 0, a⟩
  else
    let a := dirSign i.val
    let b := dirSign (i.val / 2)
    if i.val < 11 then ⟨a, b, 0⟩
    else if i.val < 15 then ⟨a, 0, b⟩
    else ⟨0, a, b⟩

/-- `lbm.rs::Lattice::weights`: `1/3` for index 0, `1/18` for indices 1..7,
`1/36` for indices 7..19. -/
def Lattice.weights (i : Fin 19) : ℚ :=
  1 / (if i.val = 0 then 3 else if i.val < 7 then 18 else 36)

/-- `Default for Lattice`: `q0` all `1.0`, `q1` and `q2` all `0.0`. -/
def Lattice.dflt (X Y Z : ℕ) : Lattice X Y Z := fun i _ => if i.val = 0 then 1 else 0

/-- `lbm.rs::Constants`. -/
structure Constants where
  time_relaxation_constant : ℚ
  speed_of_sound : ℚ
  particle_mass : ℚ
  particle_velocity_decay : ℚ
deriving DecidableEq, Repr

/-- `lbm.rs::Particle` (grid-size parameters dropped: they only tag the
type in Rust). -/
structure Particle where
  position : Vec3
  velocity : Vec3
deriving DecidableEq, Repr

/-- `lbm.rs::Simulation`: the full engine state.  `Field<T>` arrays are
functions out of `Bound3`. -/
structure Simulation (X Y Z : ℕ) where
  distributions : Lattice X Y Z
  velocity : Bound3 X Y Z → Vec3
  density : Bound3 X Y Z → ℚ
  constants : Constants
  particles : List Particle

/-- `Simulation::new`: default lattice, zero velocity field
(`Field::default`), density field all `1.0` (`Field::new_from(1.0)`). -/
def Simulation.new (X Y Z : ℕ) (constants : Constants) (particles : List Particle) :
    Simulation X Y Z :=
  { distributions := Lattice.dflt X Y Z
    velocity := fun _ => Vec3.zero
    density := fun _ => 1
    constants := constants
    particles := particles }

/-- `Simulation::collide`: for every direction and cell, the equilibrium
Taylor expansion and the `lerp` toward it with mix factor
`time_relaxation_constant`.  The Rust code fills a fresh `Lattice` cell by
cell in loop order; each target entry is written exactly once at its own
loop index, so the fill is the pointwise function below. -/
def Simulation.collide {X Y Z : ℕ} (s : Simulation X Y Z) : Lattice X Y Z :=
  fun i loc =>
    let direction := Lattice.direction i
    let weight := Lattice.weights i
    let flow_velocity := s.velocity loc
    let dm := flow_velocity.dot direction.toVec3
    let c := s.constants.speed_of_sound
    let c2 := c * c
    let equilibrium := weight * s.density loc *
      (1 + dm / c2 + dm * dm / (2 * c2 * c2) - flow_velocity.dot flow_velocity / (2 * c2))
    lerp (s.distributions i loc) equilibrium s.constants.time_relaxation_constant

/-- The nested `for x / for y / for z` loop order over all grid cells. -/
def cellList (X Y Z : ℕ) : List (Bound3 X Y Z) :=
  (List.finRange X).flatMap fun x =>
    (List.finRange Y).flatMap fun y =>
      (List.finRange Z).map fun z => ⟨x, y, z⟩

/-- The body of `Simulation::stream` for one direction: for each cell `loc`
in loop order, write `newDist loc` into the target array at
`(loc + direction).wrap()`. -/
def streamDir {X Y Z : ℕ} [NeZero X] [NeZero Y] [NeZero Z]
    (newDist : PacketDistribution X Y Z) (direction : Int3)
    (target : PacketDistribution X Y Z) : PacketDistribution X Y Z :=
  (cellList X Y Z).foldl
    (fun t loc => Function.update t ((loc.toInt3.add direction).wrap) (newDist loc)) target

/-- `Simulation::stream`: per direction slot, shuffle the post-collision
values into the wrapped neighbor cells of `self.distributions`. -/
def Simulation.stream {X Y Z : ℕ} [NeZero X] [NeZero Y] [NeZero Z]
    (s : Simulation X Y Z) (collided : Lattice X Y Z) : Simulation X Y Z :=
  { s with distributions := fun i =>
      streamDir (collided i) (Lattice.direction i) (s.distributions i) }

/-- The per-cell `packet_sum` of `Simulation::calc_conditions`: the 19
values at `loc` in canonical iteration order, reduced by `+`. -/
def packetSum {X Y Z : ℕ} (L : Lattice X Y Z) (loc : Bound3 X Y Z) : ℚ :=
  ((List.finRange 19).map fun i => L i loc).sum

/-- The per-cell `direction_sum` of `Simulation::calc_conditions`: the 19
values times their direction vectors, in canonical iteration order, reduced
by vector `+`. -/
def directionSum {X Y Z : ℕ} (L : Lattice X Y Z) (loc : Bound3 X Y Z) : Vec3 :=
  ((List.finRange 19).map fun i =>
    Vec3.scale (L i loc) (Lattice.direction i).toVec3).sum

/-- `Simulation::calc_conditions`: per cell, store `packet_sum` as density
and `direction_sum / packet_sum` as velocity.  Each field cell is written
exactly once at its own loop index. -/
def Simulation.calc_conditions {X Y Z : ℕ} (s : Simulation X Y Z) : Simulation X Y Z :=
  { s with
    density := fun loc => packetSum s.distributions loc
    velocity := fun loc =>
      (directionSum s.distributions loc).divScalar (packetSum s.distributions loc) }

/-- `lbm.rs::InitArgs`: the argument record handed to the initializer
policy. -/
structure InitArgs where
  loc : ℕ × ℕ × ℕ
  dir : Int3
  weight : ℚ

/-- The `Initializer` policy type: optional magnitude per (cell, direction,
weight). -/
abbrev InitPolicy := InitArgs → Option ℚ

/-- `Simulation::initialize`: fill every distribution from the policy with
the at-rest fallback (`1.0` on the zero direction, else `0.0`), then
recompute the macroscopic fields via `calc_conditions`. -/
def Simulation.initSim {X Y Z : ℕ} (s : Simulation X Y Z) (value : InitPolicy) :
    Simulation X Y Z :=
  let filled : Simulation X Y Z :=
    { s with
      distributions := fun i loc =>
        Option.getD
          (value ⟨((loc.x : ℕ), (loc.y : ℕ), (loc.z : ℕ)),
                  Lattice.direction i, Lattice.weights i⟩)
          (if Lattice.direction i = Int3.zero then 1 else 0) }
  filled.calc_conditions

/-- One axis of the `bounds` helper inside `Field::lerp_get`: the floor
corner (wrapped by `rem_euclid`) weighted `1 - floor_dist`, and the next
corner (wrapped by `% wrap`) weighted `floor_dist`.  The `Bound3::new(..)
.unwrap()` of the source is the in-range proof carried by `Fin`. -/
def boundsAxis (coord : ℚ) (wrap : ℕ) [NeZero wrap] : List (Fin wrap × ℚ) :=
  let floor_dist : ℚ := coord - ⌊coord⌋
  let floorW : Fin wrap := wrapFin wrap ⌊coord⌋
  [(floorW, 1 - floor_dist),
   (⟨((floorW : ℕ) + 1) % wrap, Nat.mod_lt _ (Nat.pos_of_ne_zero (NeZero.ne wrap))⟩,
    floor_dist)]

/-- `Field::lerp_get` at `T = Vec3`: trilinear interpolation over the 8
wrapped corner cells, summing `weight_x * weight_y * weight_z * value`. -/
def lerp_get {X Y Z : ℕ} [NeZero X] [NeZero Y] [NeZero Z]
    (f : Bound3 X Y Z → Vec3) (location : Vec3) : Vec3 :=
  ((boundsAxis location.x X).flatMap fun wx =>
    (boundsAxis location.y Y).flatMap fun wy =>
      (boundsAxis location.z Z).map fun wz =>
        Vec3.scale (wx.2 * wy.2 * wz.2) (f ⟨wx.1, wy.1, wz.1⟩)).sum

/-- `Simulation::stream_particles`: per particle, sample the flow at its
position, apply decay and forcing to its velocity, then advance and wrap
its position. -/
def Simulation.stream_particles {X Y Z : ℕ} [NeZero X] [NeZero Y] [NeZero Z]
    (s : Simulation X Y Z) : Simulation X Y Z :=
  { s with particles := s.particles.map fun particle =>
      let flow_velocity := lerp_get s.velocity particle.position
      let velocity :=
        (Vec3.scale s.constants.particle_velocity_decay particle.velocity).add
          (flow_velocity.divScalar s.constants.particle_mass)
      { position := (particle.position.add velocity).wrap (X, Y, Z)
        velocity := velocity } }

/-- `Simulation::step`: collide, stream, recompute macroscopic fields,
advect particles, in that fixed order. -/
def Simulation.step {X Y Z : ℕ} [NeZero X] [NeZero Y] [NeZero Z]
    (s : Simulation X Y Z) : Simulation X Y Z :=
  ((s.stream s.collide).calc_conditions).stream_particles

/-! ### IEEE finiteness model

`F32` models an `f32` value as either a finite number with its exact
magnitude, or a non-finite value (NaN or an infinity).  Finite arithmetic is
exact (rounding and overflow keep finiteness in the ranges this engine
touches and are not modelled); any operation with a non-finite operand is
conservatively non-finite, and a finite value divided by zero is non-finite
(`x/0 = ±inf`, `0/0 = NaN`).  This scalar is used only to settle the claim
about the unguarded division in `calc_conditions`. -/

/-- An `f32` value: exact finite magnitude, or non-finite (NaN / ±inf). -/
inductive F32 where
  | num : ℚ → F32
  | nonfin : F32
deriving DecidableEq, Repr

/-- IEEE addition on the model: finite plus finite is exact, anything with a
non-finite operand is non-finite. -/
def F32.add : F32 → F32 → F32
  | .num a, .num b => .num (a + b)
  | _, _ => .nonfin

/-- IEEE multiplication on the model. -/
def F32.mul : F32 → F32 → F32
  | .num a, .num b => .num (a * b)
  | _, _ => .nonfin

/-- IEEE division on the model: a zero divisor yields a non-finite value
(`±inf` for a nonzero dividend, NaN for `0/0`). -/
def F32.div : F32 → F32 → F32
  | .num a, .num b => if b = 0 then .nonfin else .num (a / b)
  | _, _ => .nonfin

/-- Whether the modelled value is finite. -/
def F32.isFinite : F32 → Bool
  | .num _ => true
  | .nonfin => false

/-- A 3-vector of modelled `f32` values. -/
structure Vec3F where
  x : F32
  y : F32
  z : F32
deriving DecidableEq, Repr

/-- `packet * Into::<Vec3>::into(dir)` over the model. -/
def Vec3F.scaleDir (c : F32) (v : Int3) : Vec3F :=
  ⟨c.mul (.num (v.x : ℚ)), c.mul (.num (v.y : ℚ)), c.mul (.num (v.z : ℚ))⟩

/-- Componentwise vector addition over the model. -/
def Vec3F.add (a b : Vec3F) : Vec3F := ⟨a.x.add b.x, a.y.add b.y, a.z.add b.z⟩

/-- `impl Div<Float> for Vec3` over the model. -/
def Vec3F.divScalar (v : Vec3F) (c : F32) : Vec3F := ⟨v.x.div c, v.y.div c, v.z.div c⟩

/-- A lattice of modelled `f32` distribution values. -/
abbrev LatticeF (X Y Z : ℕ) := Fin 19 → Bound3 X Y Z → F32

/-- The `packet_sum` of `Simulation::calc_conditions` over the model. -/
def packetSumF {X Y Z : ℕ} (L : LatticeF X Y Z) (loc : Bound3 X Y Z) : F32 :=
  ((List.finRange 19).map fun i => L i loc).foldl F32.add (.num 0)

/-- The `direction_sum` of `Simulation::calc_conditions` over the model. -/
def directionSumF {X Y Z : ℕ} (L : LatticeF X Y Z) (loc : Bound3 X Y Z) : Vec3F :=
  ((List.finRange 19).map fun i => Vec3F.scaleDir (L i loc) (Lattice.direction i)).foldl
    Vec3F.add ⟨.num 0, .num 0, .num 0⟩

/-- `Simulation::calc_conditions` over the model: the updated density field
and velocity field (each cell is written exactly once at its own loop
index; the division `direction_sum / packet_sum` is performed with no guard
on the sign or vanishing of `packet_sum`, no error path exists). -/
def calc_conditionsF {X Y Z : ℕ} (L : LatticeF X Y Z) :
    (Bound3 X Y Z → F32) × (Bound3 X Y Z → Vec3F) :=
  (fun loc => packetSumF L loc,
   fun loc => (directionSumF L loc).divScalar (packetSumF L loc))

/-- Total mass: the sum of all distribution values over the entire grid and
all 19 directions. -/
def totalMass {X Y Z : ℕ} (L : Lattice X Y Z) : ℚ :=
  ∑ i : Fin 19, ∑ loc : Bound3 X Y Z, L i loc

/-- The number of nonzero components of an integer 3-vector: 0 for the rest
direction, 1 for an axis direction, 2 for a two-axis diagonal. -/
def Int3.nonzeroCount (v : Int3) : ℕ :=
  (if v.x = 0 then 0 else 1) + (if v.y = 0 then 0 else 1) + (if v.z = 0 then 0 else 1)

/-- The zero vector, the six single-axis unit vectors, and the twelve
two-axis diagonal vectors: the intended D3Q19 direction set. -/
def d3q19Target : List Int3 :=
  [⟨0, 0, 0⟩,
   ⟨1, 0, 0⟩, ⟨-1, 0, 0⟩, ⟨0, 1, 0⟩, ⟨0, -1, 0⟩, ⟨0, 0, 1⟩, ⟨0, 0, -1⟩,
   ⟨1, 1, 0⟩, ⟨1, -1, 0⟩, ⟨-1, 1, 0⟩, ⟨-1, -1, 0⟩,
   ⟨1, 0, 1⟩, ⟨1, 0, -1⟩, ⟨-1, 0, 1⟩, ⟨-1, 0, -1⟩,
   ⟨0, 1, 1⟩, ⟨0, 1, -1⟩, ⟨0, -1, 1⟩, ⟨0, -1, -1⟩]

/-- A 1x1x1 lattice of modelled `f32` values with every distribution zero:
its per-cell packet sum is exactly zero. -/
def zeroLatF : LatticeF 1 1 1 := fun _ _ => F32.num 0

/-- A 1x1x1 lattice of modelled `f32` values whose zero-direction value is
`-1` and all other values are zero: its per-cell packet sum is `-1`. -/
def negLatF : LatticeF 1 1 1 := fun i _ => if i.val = 0 then F32.num (-1) else F32.num 0

/-! ### Helper lemmas -/

theorem Vec3.add_def (a b : Vec3) : a + b = ⟨a.x + b.x, a.y + b.y, a.z + b.z⟩ := rfl

theorem Vec3.zero_def : (0 : Vec3) = ⟨0, 0, 0⟩ := rfl

theorem packetSum_eq_sum {X Y Z : ℕ} (L : Lattice X Y Z) (loc : Bound3 X Y Z) :
    packetSum L loc = ∑ i : Fin 19, L i loc :=
  (Fin.sum_univ_def fun i => L i loc).symm

theorem directionSum_eq_sum {X Y Z : ℕ} (L : Lattice X Y Z) (loc : Bound3 X Y Z) :
    directionSum L loc =
      ∑ i : Fin 19, Vec3.scale (L i loc) (Lattice.direction i).toVec3 :=
  (Fin.sum_univ_def fun i => Vec3.scale (L i loc) (Lattice.direction i).toVec3).symm

theorem calc_conditions_density {X Y Z : ℕ} (s : Simulation X Y Z) (loc : Bound3 X Y Z) :
    s.calc_conditions.density loc = ∑ i : Fin 19, s.distributions i loc :=
  packetSum_eq_sum _ _

theorem calc_conditions_velocity {X Y Z : ℕ} (s : Simulation X Y Z) (loc : Bound3 X Y Z) :
    s.calc_conditions.velocity loc =
      (∑ i : Fin 19, Vec3.scale (s.distributions i loc) (Lattice.direction i).toVec3).divScalar
        (∑ i : Fin 19, s.distributions i loc) := by
  show (directionSum _ _).divScalar (packetSum _ _) = _
  rw [packetSum_eq_sum, directionSum_eq_sum]

theorem calc_conditions_distributions {X Y Z : ℕ} (s : Simulation X Y Z) :
    s.calc_conditions.distributions = s.distributions := rfl

theorem Vec3.scale_zero (v : Vec3) : Vec3.scale 0 v = 0 := by
  simp only [Vec3.scale, zero_mul, Vec3.zero_def]

theorem Vec3.scale_zeroVec (c : ℚ) : Vec3.scale c (Int3.toVec3 ⟨0, 0, 0⟩) = 0 := by
  simp only [Vec3.scale, Int3.toVec3, Int.cast_zero, mul_zero, Vec3.zero_def]

theorem packetSum_dflt {X Y Z : ℕ} (loc : Bound3 X Y Z) :
    packetSum (Lattice.dflt X Y Z) loc = 1 := by
  rw [packetSum_eq_sum]
  have hv : ∀ i : Fin 19, (i.val = 0) = (i = 0) := fun i => by
    simp [Fin.ext_iff]
  simp [Lattice.dflt, hv, Finset.sum_ite_eq']

theorem directionSum_dflt {X Y Z : ℕ} (loc : Bound3 X Y Z) :
    directionSum (Lattice.dflt X Y Z) loc = 0 := by
  rw [directionSum_eq_sum]
  apply Finset.sum_eq_zero
  intro i _
  by_cases h : i.val = 0
  · have hd : Lattice.direction i = ⟨0, 0, 0⟩ := by
      have : i = 0 := by
        apply Fin.ext
        exact h
      rw [this]
      decide
    rw [hd, Vec3.scale_zeroVec]
  · simp [Lattice.dflt, h, Vec3.scale_zero]

theorem wrapFin_val {n : ℕ} [NeZero n] (x : Fin n) : wrapFin n ((x : ℕ) : ℤ) = x := by
  apply Fin.ext
  show ((((x : ℕ) : ℤ)) % (n : ℤ)).toNat = (x : ℕ)
  rw [Int.emod_eq_of_lt (Int.natCast_nonneg _) (by exact_mod_cast x.isLt)]
  omega

theorem wrapFin_add_shift {n : ℕ} [NeZero n] (a b : ℤ) :
    wrapFin n ((((wrapFin n a : Fin n) : ℕ) : ℤ) + b) = wrapFin n (a + b) := by
  apply Fin.ext
  show (((((a % (n : ℤ)).toNat : ℕ) : ℤ) + b) % (n : ℤ)).toNat = ((a + b) % (n : ℤ)).toNat
  have h0 : ((((a % (n : ℤ)).toNat : ℕ)) : ℤ) = a % (n : ℤ) :=
    Int.toNat_of_nonneg (Int.emod_nonneg a (Int.natCast_ne_zero.mpr (NeZero.ne n)))
  rw [h0, Int.emod_add_emod]

theorem wrap_roundtrip {X Y Z : ℕ} [NeZero X] [NeZero Y] [NeZero Z] (v w : Int3) :
    (((Int3.wrap v : Bound3 X Y Z).toInt3.add w).wrap : Bound3 X Y Z) =
      (Int3.wrap (v.add w) : Bound3 X Y Z) := by
  simp only [Int3.wrap, Bound3.toInt3, Int3.add, Bound3.mk.injEq]
  exact ⟨wrapFin_add_shift _ _, wrapFin_add_shift _ _, wrapFin_add_shift _ _⟩

theorem wrap_self {X Y Z : ℕ} [NeZero X] [NeZero Y] [NeZero Z] (b : Bound3 X Y Z) :
    b.toInt3.wrap = b := by
  rcases b with ⟨x, y, z⟩
  simp only [Int3.wrap, Bound3.toInt3, Bound3.mk.injEq]
  exact ⟨wrapFin_val x, wrapFin_val y, wrapFin_val z⟩

theorem wrap_add_cancel {X Y Z : ℕ} [NeZero X] [NeZero Y] [NeZero Z]
    (loc : Bound3 X Y Z) (d : Int3) :
    ((((loc.toInt3.add d).wrap : Bound3 X Y Z).toInt3.add d.neg).wrap : Bound3 X Y Z) = loc := by
  rw [wrap_roundtrip]
  have h : (loc.toInt3.add d).add d.neg = loc.toInt3 := by
    simp only [Int3.add, Int3.neg, Bound3.toInt3, Int3.mk.injEq]
    exact ⟨by ring, by ring, by ring⟩
  rw [h, wrap_self]

theorem wrap_neg_add_cancel {X Y Z : ℕ} [NeZero X] [NeZero Y] [NeZero Z]
    (m : Bound3 X Y Z) (d : Int3) :
    ((((m.toInt3.add d.neg).wrap : Bound3 X Y Z).toInt3.add d).wrap : Bound3 X Y Z) = m := by
  rw [wrap_roundtrip]
  have h : (m.toInt3.add d.neg).add d = m.toInt3 := by
    simp only [Int3.add, Int3.neg, Bound3.toInt3, Int3.mk.injEq]
    exact ⟨by ring, by ring, by ring⟩
  rw [h, wrap_self]

theorem streamKey_injective {X Y Z : ℕ} [NeZero X] [NeZero Y] [NeZero Z] (d : Int3) :
    Function.Injective (fun loc : Bound3 X Y Z => ((loc.toInt3.add d).wrap : Bound3 X Y Z)) := by
  intro a b hab
  have h := congrArg (fun m : Bound3 X Y Z => ((m.toInt3.add d.neg).wrap : Bound3 X Y Z)) hab
  simpa only [wrap_add_cancel] using h

theorem streamKey_bijective {X Y Z : ℕ} [NeZero X] [NeZero Y] [NeZero Z] (d : Int3) :
    Function.Bijective (fun loc : Bound3 X Y Z => ((loc.toInt3.add d).wrap : Bound3 X Y Z)) :=
  ⟨streamKey_injective d, fun m => ⟨(m.toInt3.add d.neg).wrap, wrap_neg_add_cancel m d⟩⟩

theorem cellList_mem {X Y Z : ℕ} (b : Bound3 X Y Z) : b ∈ cellList X Y Z := by
  rcases b with ⟨x, y, z⟩
  unfold cellList
  refine List.mem_flatMap.mpr ⟨x, List.mem_finRange x, ?_⟩
  refine List.mem_flatMap.mpr ⟨y, List.mem_finRange y, ?_⟩
  exact List.mem_map.mpr ⟨z, List.mem_finRange z, rfl⟩

theorem cellList_nodup (X Y Z : ℕ) : (cellList X Y Z).Nodup := by
  unfold cellList
  refine List.nodup_flatMap.mpr ⟨fun x _ => ?_, ?_⟩
  · refine List.nodup_flatMap.mpr ⟨fun y _ => ?_, ?_⟩
    · exact (List.nodup_finRange Z).map fun a b h => congrArg Bound3.z h
    · refine ((List.nodup_finRange Y).imp ?_)
      intro a b hne c hc1 hc2
      rcases List.mem_map.mp hc1 with ⟨z1, _, rfl⟩
      rcases List.mem_map.mp hc2 with ⟨z2, _, hc⟩
      exact hne (congrArg Bound3.y hc).symm
  · refine ((List.nodup_finRange X).imp ?_)
    intro a b hne c hc1 hc2
    rcases List.mem_flatMap.mp hc1 with ⟨y1, _, hcy1⟩
    rcases List.mem_map.mp hcy1 with ⟨z1, _, rfl⟩
    rcases List.mem_flatMap.mp hc2 with ⟨y2, _, hcy2⟩
    rcases List.mem_map.mp hcy2 with ⟨z2, _, hc⟩
    exact hne (congrArg Bound3.x hc).symm

theorem foldl_update_notmem {α β : Type} [DecidableEq α] (k : α → α) (v : α → β)
    (l : List α) (t : α → β) (m : α) (hm : ∀ b ∈ l, k b ≠ m) :
    (l.foldl (fun t loc => Function.update t (k loc) (v loc)) t) m = t m := by
  induction l generalizing t with
  | nil => rfl
  | cons hd tl ih =>
    rw [List.foldl_cons, ih _ fun b hb => hm b (List.mem_cons_of_mem _ hb)]
    exact Function.update_noteq (fun hmk => hm hd (List.mem_cons_self hd tl) hmk.symm) _ _

theorem foldl_update_mem {α β : Type} [DecidableEq α] (k : α → α) (v : α → β)
    (hk : Function.Injective k) (l : List α) (hl : l.Nodup) (t : α → β)
    (a : α) (ha : a ∈ l) :
    (l.foldl (fun t loc => Function.update t (k loc) (v loc)) t) (k a) = v a := by
  induction l generalizing t with
  | nil => cases ha
  | cons hd tl ih =>
    rw [List.foldl_cons]
    rcases List.mem_cons.mp ha with h | h
    · subst h
      have hne : ∀ b ∈ tl, k b ≠ k a := by
        intro b hb hkb
        exact (List.nodup_cons.mp hl).1 (hk hkb ▸ hb)
      rw [foldl_update_notmem k v tl _ _ hne, Function.update_same]
    · exact ih (List.nodup_cons.mp hl).2 _ h

theorem streamDir_wrap {X Y Z : ℕ} [NeZero X] [NeZero Y] [NeZero Z]
    (newDist : PacketDistribution X Y Z) (d : Int3)
    (target : PacketDistribution X Y Z) (loc : Bound3 X Y Z) :
    streamDir newDist d target ((loc.toInt3.add d).wrap) = newDist loc := by
  unfold streamDir
  exact foldl_update_mem _ newDist (streamKey_injective d) _ (cellList_nodup X Y Z)
    target loc (cellList_mem loc)

theorem streamDir_closed {X Y Z : ℕ} [NeZero X] [NeZero Y] [NeZero Z]
    (newDist : PacketDistribution X Y Z) (d : Int3)
    (target : PacketDistribution X Y Z) (m : Bound3 X Y Z) :
    streamDir newDist d target m = newDist ((m.toInt3.add d.neg).wrap) := by
  conv_lhs => rw [← wrap_neg_add_cancel m d]
  exact streamDir_wrap newDist d target ((m.toInt3.add d.neg).wrap)

theorem Vec3.scale_one (v : Vec3) : Vec3.scale 1 v = v := by
  simp only [Vec3.scale, one_mul]

theorem Vec3.scale_zeroR (c : ℚ) : Vec3.scale c Vec3.zero = 0 := by
  simp only [Vec3.scale, Vec3.zero, mul_zero, Vec3.zero_def]

theorem boundsAxis_natCast {n : ℕ} [NeZero n] (x : Fin n) :
    boundsAxis ((x : ℕ) : ℚ) n =
      [(x, 1),
       (⟨((x : ℕ) + 1) % n, Nat.mod_lt _ (Nat.pos_of_ne_zero (NeZero.ne n))⟩, 0)] := by
  unfold boundsAxis
  have hfloor : ⌊(((x : ℕ) : ℚ))⌋ = ((x : ℕ) : ℤ) := Int.floor_natCast _
  simp only [hfloor, wrapFin_val, Int.cast_natCast, sub_self]
  norm_num

theorem lerp_get_zero {X Y Z : ℕ} [NeZero X] [NeZero Y] [NeZero Z] (pos : Vec3) :
    lerp_get (fun _ : Bound3 X Y Z => Vec3.zero) pos = Vec3.zero := by
  unfold lerp_get
  rw [show Vec3.zero = (0 : Vec3) from rfl]
  apply List.sum_eq_zero
  intro v hv
  simp only [List.mem_flatMap, List.mem_map] at hv
  obtain ⟨wx, _, wy, _, wz, _, rfl⟩ := hv
  exact Vec3.scale_zeroR _

theorem remEuclidQ_nonneg (a : ℚ) {n : ℚ} (hn : 0 < n) : 0 ≤ remEuclidQ a n := by
  rw [remEuclidQ, mul_comm]
  exact Int.sub_floor_div_mul_nonneg a hn

theorem remEuclidQ_lt (a : ℚ) {n : ℚ} (hn : 0 < n) : remEuclidQ a n < n := by
  rw [remEuclidQ, mul_comm]
  exact Int.sub_floor_div_mul_lt a hn

theorem remEuclidQ_zero (n : ℚ) : remEuclidQ 0 n = 0 := by
  simp [remEuclidQ]

theorem remEuclidQ_nine_tenths {X : ℕ} (hX : 1 ≤ X) :
    remEuclidQ ((X : ℚ) + 9/10) X = 9/10 := by
  have hX1 : (1 : ℚ) ≤ (X : ℚ) := by exact_mod_cast hX
  have hpos : (0 : ℚ) < X := by linarith
  have hfl : ⌊((X : ℚ) + 9/10) / X⌋ = 1 := by
    rw [Int.floor_eq_iff]
    constructor
    · rw [le_div_iff₀ hpos]
      push_cast
      linarith
    · rw [div_lt_iff₀ hpos]
      push_cast
      linarith
  unfold remEuclidQ
  rw [hfl]
  push_cast
  ring

theorem foldl_F32_add_num (qs : List ℚ) (a : ℚ) :
    (qs.map F32.num).foldl F32.add (F32.num a) = F32.num (a + qs.sum) := by
  induction qs generalizing a with
  | nil => simp
  | cons q tl ih =>
    rw [List.map_cons, List.foldl_cons,
      show F32.add (F32.num a) (F32.num q) = F32.num (a + q) from rfl, ih, List.sum_cons]
    congr 1
    ring

theorem packetSumF_num {X Y Z : ℕ} (L : LatticeF X Y Z) (loc : Bound3 X Y Z)
    (g : Fin 19 → ℚ) (hL : ∀ i, L i loc = F32.num (g i)) :
    packetSumF L loc = F32.num (∑ i : Fin 19, g i) := by
  unfold packetSumF
  have hmap : (List.finRange 19).map (fun i => L i loc) =
      ((List.finRange 19).map g).map F32.num := by
    rw [List.map_map]
    exact List.map_congr_left fun i _ => hL i
  rw [hmap, foldl_F32_add_num, zero_add, ← Fin.sum_univ_def]

theorem directionSumF_num {X Y Z : ℕ} (L : LatticeF X Y Z) (loc : Bound3 X Y Z)
    (hL : ∀ i, ∃ q, L i loc = F32.num q) :
    ∃ u v w, directionSumF L loc = ⟨F32.num u, F32.num v, F32.num w⟩ := by
  unfold directionSumF
  suffices h : ∀ (l : List (Fin 19)) (a b c : ℚ),
      ∃ u v w,
        (l.map fun i => Vec3F.scaleDir (L i loc) (Lattice.direction i)).foldl Vec3F.add
          ⟨F32.num a, F32.num b, F32.num c⟩ = ⟨F32.num u, F32.num v, F32.num w⟩ from
    h _ 0 0 0
  intro l
  induction l with
  | nil => exact fun a b c => ⟨a, b, c, rfl⟩
  | cons hd tl ih =>
    intro a b c
    obtain ⟨q, hq⟩ := hL hd
    rw [List.map_cons, List.foldl_cons, hq]
    have hstep : Vec3F.add ⟨F32.num a, F32.num b, F32.num c⟩
          (Vec3F.scaleDir (F32.num q) (Lattice.direction hd)) =
        ⟨F32.num (a + q * (((Lattice.direction hd).x : ℚ))),
         F32.num (b + q * (((Lattice.direction hd).y : ℚ))),
         F32.num (c + q * (((Lattice.direction hd).z : ℚ)))⟩ := rfl
    rw [hstep]
    exact ih _ _ _

/-! ### Claim theorems -/

/-- C1: for every cell and every one of the 19 directions, `collide`
computes the equilibrium value
`eq = weight * density * (1 + (e·u)/cs^2 + (e·u)^2/(2 cs^4) - (u·u)/(2 cs^2))`
from the cell's current density and velocity, and writes into the new
lattice `eq * time_relaxation_constant + old * (1 - time_relaxation_constant)`,
i.e. `lerp(old, eq, time_relaxation_constant)` with the relaxation constant
used directly as the mix factor. -/
theorem collide_equilibrium_lerp {X Y Z : ℕ} (s : Simulation X Y Z)
    (i : Fin 19) (loc : Bound3 X Y Z) :
    s.collide i loc =
      Lattice.weights i * s.density loc *
          (1 + (Lattice.direction i).toVec3.dot (s.velocity loc)
                / s.constants.speed_of_sound ^ 2
             + ((Lattice.direction i).toVec3.dot (s.velocity loc)) ^ 2
                / (2 * s.constants.speed_of_sound ^ 4)
             - (s.velocity loc).dot (s.velocity loc)
                / (2 * s.constants.speed_of_sound ^ 2))
          * s.constants.time_relaxation_constant
        + s.distributions i loc * (1 - s.constants.time_relaxation_constant) := by
  simp only [Simulation.collide, lerp, Vec3.dot, Int3.toVec3]
  ring

/-- C3: for every cell, `calc_conditions` stores density equal to the sum of
the 19 distribution values at that cell and velocity equal to the sum of
value-weighted direction vectors divided by that density (the code folds in
the canonical iteration order; over exact arithmetic this is the sum). -/
theorem calc_conditions_density_velocity {X Y Z : ℕ} (s : Simulation X Y Z)
    (loc : Bound3 X Y Z) :
    s.calc_conditions.density loc = ∑ i : Fin 19, s.distributions i loc ∧
    s.calc_conditions.velocity loc =
      (∑ i : Fin 19, Vec3.scale (s.distributions i loc)
          (Lattice.direction i).toVec3).divScalar
        (∑ i : Fin 19, s.distributions i loc) :=
  ⟨calc_conditions_density s loc, calc_conditions_velocity s loc⟩

/-- C5: the 19 direction vectors are pairwise distinct and are exactly the
zero vector, the six single-axis vectors, and the twelve two-axis diagonal
vectors; the weight of a direction is 1/3, 1/18 or 1/36 according to its
number of nonzero components, and the 19 weights sum to exactly 1. -/
theorem d3q19_directions_weights :
    ((List.finRange 19).map Lattice.direction).Nodup ∧
    ((List.finRange 19).map Lattice.direction).Perm d3q19Target ∧
    (∀ i : Fin 19, Lattice.weights i =
      if (Lattice.direction i).nonzeroCount = 0 then 1 / 3
      else if (Lattice.direction i).nonzeroCount = 1 then 1 / 18
      else 1 / 36) ∧
    (∀ i : Fin 19, (Lattice.direction i).nonzeroCount ≤ 2) ∧
    ∑ i : Fin 19, Lattice.weights i = 1 := by
  refine ⟨by decide, by decide, ?_, by decide, ?_⟩
  · intro i
    fin_cases i <;>
      norm_num [Lattice.weights, Lattice.direction, Int3.nonzeroCount, dirSign]
  · simp only [Fin.sum_univ_succ, Lattice.weights, Finset.univ_eq_empty, Finset.sum_empty]
    norm_num

/-- C10: immediately after `new`, every cell holds the at-rest distribution
(1 on the zero direction, 0 elsewhere), the density field reads 1 and the
velocity field reads the zero vector, and these fields already equal what
macroscopic recovery would compute from the distributions — with no call to
`calc_conditions`. -/
theorem new_at_rest {X Y Z : ℕ} (c : Constants) (ps : List Particle)
    (i : Fin 19) (loc : Bound3 X Y Z) :
    (Simulation.new X Y Z c ps).distributions i loc = (if i.val = 0 then 1 else 0) ∧
    (Simulation.new X Y Z c ps).density loc = 1 ∧
    (Simulation.new X Y Z c ps).velocity loc = Vec3.zero ∧
    (Simulation.new X Y Z c ps).density loc =
      packetSum (Simulation.new X Y Z c ps).distributions loc ∧
    (Simulation.new X Y Z c ps).velocity loc =
      (directionSum (Simulation.new X Y Z c ps).distributions loc).divScalar
        (packetSum (Simulation.new X Y Z c ps).distributions loc) := by
  refine ⟨rfl, rfl, rfl, ?_, ?_⟩
  · rw [show (Simulation.new X Y Z c ps).distributions = Lattice.dflt X Y Z from rfl,
        packetSum_dflt]
    rfl
  · rw [show (Simulation.new X Y Z c ps).distributions = Lattice.dflt X Y Z from rfl,
        packetSum_dflt, directionSum_dflt]
    show Vec3.zero = Vec3.divScalar 0 1
    simp [Vec3.divScalar, Vec3.zero_def, Vec3.zero]

/-- C2: for every cell `loc` and every direction `i`, after `stream` the
distribution value for direction `i` at cell `(loc + direction) mod
(X,Y,Z)` equals the post-collision value for direction `i` at `loc`; and
the wrapped target index is the per-axis `rem_euclid`, with no special-case
branching at edges. -/
theorem stream_writes_wrapped_neighbor {X Y Z : ℕ} [NeZero X] [NeZero Y] [NeZero Z]
    (s : Simulation X Y Z) (collided : Lattice X Y Z) (i : Fin 19) (loc : Bound3 X Y Z) :
    (s.stream collided).distributions i
        ((loc.toInt3.add (Lattice.direction i)).wrap) = collided i loc ∧
    ((loc.toInt3.add (Lattice.direction i)).wrap : Bound3 X Y Z) =
      ⟨wrapFin X (loc.toInt3.x + (Lattice.direction i).x),
       wrapFin Y (loc.toInt3.y + (Lattice.direction i).y),
       wrapFin Z (loc.toInt3.z + (Lattice.direction i).z)⟩ :=
  ⟨streamDir_wrap (collided i) (Lattice.direction i) (s.distributions i) loc, rfl⟩

/-- Witness for C2 at the concrete grid 2x3x4, direction index 1, cell
(0,0,0). -/
theorem stream_writes_wrapped_neighbor_witness :
    ((Simulation.new 2 3 4
          { time_relaxation_constant := 5/4, speed_of_sound := 4/7,
            particle_mass := 1, particle_velocity_decay := 19/20 }
          []).stream (Lattice.dflt 2 3 4)).distributions 1
        (((⟨0, 0, 0⟩ : Bound3 2 3 4).toInt3.add (Lattice.direction 1)).wrap) =
      Lattice.dflt 2 3 4 1 ⟨0, 0, 0⟩ :=
  (stream_writes_wrapped_neighbor _ (Lattice.dflt 2 3 4) 1 ⟨0, 0, 0⟩).1

/-- C4: the sum of all distribution values over the entire grid and all 19
directions is unchanged by `stream` in isolation: the post-stream lattice
carries exactly the total mass of the post-collision input lattice. -/
theorem stream_conserves_mass {X Y Z : ℕ} [NeZero X] [NeZero Y] [NeZero Z]
    (s : Simulation X Y Z) (collided : Lattice X Y Z) :
    totalMass (s.stream collided).distributions = totalMass collided := by
  unfold totalMass
  refine Finset.sum_congr rfl fun i _ => ?_
  exact Fintype.sum_bijective
    (fun m : Bound3 X Y Z => (((m.toInt3.add (Lattice.direction i).neg).wrap : Bound3 X Y Z)))
    (streamKey_bijective (Lattice.direction i).neg)
    _ _
    (fun m => streamDir_closed (collided i) (Lattice.direction i) (s.distributions i) m)

/-- Witness for C4 at the concrete grid 2x3x4 with the at-rest lattice as
post-collision input. -/
theorem stream_conserves_mass_witness :
    totalMass ((Simulation.new 2 3 4
          { time_relaxation_constant := 5/4, speed_of_sound := 4/7,
            particle_mass := 1, particle_velocity_decay := 19/20 }
          []).stream (Lattice.dflt 2 3 4)).distributions =
      totalMass (Lattice.dflt 2 3 4) :=
  stream_conserves_mass _ (Lattice.dflt 2 3 4)

/-- C6: after `initialize` with any caller-supplied policy, each
distribution value equals the policy's returned magnitude where the policy
returns `Some`, and otherwise the at-rest fallback (1 on the zero
direction, 0 elsewhere); and the density and velocity fields are recomputed
from the filled distributions before returning. -/
theorem initSim_policy_fill_and_recompute {X Y Z : ℕ} (s : Simulation X Y Z)
    (p : InitPolicy) (i : Fin 19) (loc : Bound3 X Y Z) :
    (s.initSim p).distributions i loc =
      Option.getD
        (p ⟨((loc.x : ℕ), (loc.y : ℕ), (loc.z : ℕ)),
            Lattice.direction i, Lattice.weights i⟩)
        (if Lattice.direction i = Int3.zero then 1 else 0) ∧
    (s.initSim p).density loc = ∑ j : Fin 19, (s.initSim p).distributions j loc ∧
    (s.initSim p).velocity loc =
      (∑ j : Fin 19, Vec3.scale ((s.initSim p).distributions j loc)
          (Lattice.direction j).toVec3).divScalar
        (∑ j : Fin 19, (s.initSim p).distributions j loc) :=
  ⟨rfl, calc_conditions_density _ loc, calc_conditions_velocity _ loc⟩

/-- C7 counterexample: the claim asserts that a zero **or negative** stored
density yields a non-finite stored velocity.  On the concrete 1x1x1 lattice
whose distribution values sum to `-1`, `calc_conditions` stores the
negative density `-1` but a finite velocity (`0 / -1 = 0` is finite), so
the negative branch of the claim is false. -/
theorem calc_conditions_negative_density_finite_velocity :
    (calc_conditionsF negLatF).1 ⟨0, 0, 0⟩ = F32.num (-1) ∧
    ((calc_conditionsF negLatF).2 ⟨0, 0, 0⟩).x.isFinite = true ∧
    ((calc_conditionsF negLatF).2 ⟨0, 0, 0⟩).y.isFinite = true ∧
    ((calc_conditionsF negLatF).2 ⟨0, 0, 0⟩).z.isFinite = true := by
  have hg : ∀ i : Fin 19,
      negLatF i ⟨0, 0, 0⟩ = F32.num (if i.val = 0 then (-1 : ℚ) else 0) := by
    intro i
    unfold negLatF
    exact (apply_ite F32.num _ _ _).symm
  have hsum : (∑ i : Fin 19, (if i.val = 0 then (-1 : ℚ) else 0)) = -1 := by
    have hv : ∀ i : Fin 19, (i.val = 0) = (i = 0) := fun i => by simp [Fin.ext_iff]
    simp [hv, Finset.sum_ite_eq']
  have hp : packetSumF negLatF ⟨0, 0, 0⟩ = F32.num (-1) := by
    rw [packetSumF_num negLatF _ _ hg, hsum]
  obtain ⟨u, v, w, hd⟩ := directionSumF_num negLatF ⟨0, 0, 0⟩ fun i => ⟨_, hg i⟩
  have hne : ((-1 : ℚ)) ≠ 0 := by norm_num
  refine ⟨hp, ?_, ?_, ?_⟩ <;>
    simp [calc_conditionsF, Vec3F.divScalar, hp, hd, F32.div, hne, F32.isFinite]

/-- C7 (amended): if at some cell the distribution values sum to exactly
zero, `calc_conditions` still performs the velocity division unguarded: it
stores that zero as the density and a non-finite value in every velocity
component, raising no error and performing no clamping (the computation is
total).  (When the sum is negative but nonzero the division is equally
unguarded but its result is finite — see the counterexample.) -/
theorem calc_conditions_zero_density_nonfinite {X Y Z : ℕ} (L : LatticeF X Y Z)
    (loc : Bound3 X Y Z) (h : packetSumF L loc = F32.num 0) :
    (calc_conditionsF L).1 loc = F32.num 0 ∧
    ((calc_conditionsF L).2 loc).x.isFinite = false ∧
    ((calc_conditionsF L).2 loc).y.isFinite = false ∧
    ((calc_conditionsF L).2 loc).z.isFinite = false := by
  have hdiv : ∀ a : F32, a.div (F32.num 0) = F32.nonfin := by
    intro a
    cases a <;> simp [F32.div]
  exact ⟨h, by simp [calc_conditionsF, Vec3F.divScalar, h, hdiv, F32.isFinite],
    by simp [calc_conditionsF, Vec3F.divScalar, h, hdiv, F32.isFinite],
    by simp [calc_conditionsF, Vec3F.divScalar, h, hdiv, F32.isFinite]⟩

/-- Witness for C7's amended theorem on the concrete all-zero 1x1x1
lattice. -/
theorem calc_conditions_zero_density_nonfinite_witness :
    packetSumF zeroLatF ⟨0, 0, 0⟩ = F32.num 0 ∧
    ((calc_conditionsF zeroLatF).2 ⟨0, 0, 0⟩).x.isFinite = false ∧
    ((calc_conditionsF zeroLatF).2 ⟨0, 0, 0⟩).y.isFinite = false ∧
    ((calc_conditionsF zeroLatF).2 ⟨0, 0, 0⟩).z.isFinite = false := by
  have h : packetSumF zeroLatF ⟨0, 0, 0⟩ = F32.num 0 := by
    have h0 := packetSumF_num zeroLatF ⟨0, 0, 0⟩ (fun _ => 0) fun _ => rfl
    simpa using h0
  have hmain := calc_conditions_zero_density_nonfinite zeroLatF ⟨0, 0, 0⟩ h
  exact ⟨h, hmain.2.1, hmain.2.2.1, hmain.2.2.2⟩

/-- C8: trilinear sampling of a stored field at an exact integer grid
coordinate `(x, y, z)` with `0 ≤ x < X`, `0 ≤ y < Y`, `0 ≤ z < Z` returns
exactly the value stored at cell `(x, y, z)`, with zero error (over the
exact-arithmetic model every stored entry is finite). -/
theorem lerp_get_integer_exact {X Y Z : ℕ} [NeZero X] [NeZero Y] [NeZero Z]
    (f : Bound3 X Y Z → Vec3) (loc : Bound3 X Y Z) :
    lerp_get f ⟨((loc.x : ℕ) : ℚ), ((loc.y : ℕ) : ℚ), ((loc.z : ℕ) : ℚ)⟩ = f loc := by
  unfold lerp_get
  rw [show (⟨((loc.x : ℕ) : ℚ), ((loc.y : ℕ) : ℚ), ((loc.z : ℕ) : ℚ)⟩ : Vec3).x =
        ((loc.x : ℕ) : ℚ) from rfl,
      show (⟨((loc.x : ℕ) : ℚ), ((loc.y : ℕ) : ℚ), ((loc.z : ℕ) : ℚ)⟩ : Vec3).y =
        ((loc.y : ℕ) : ℚ) from rfl,
      show (⟨((loc.x : ℕ) : ℚ), ((loc.y : ℕ) : ℚ), ((loc.z : ℕ) : ℚ)⟩ : Vec3).z =
        ((loc.z : ℕ) : ℚ) from rfl,
      boundsAxis_natCast, boundsAxis_natCast, boundsAxis_natCast]
  simp only [List.flatMap_cons, List.flatMap_nil, List.map_cons, List.map_nil,
    List.append_nil, List.cons_append, List.nil_append, List.sum_cons, List.sum_nil,
    one_mul, mul_one, mul_zero, zero_mul, Vec3.scale_zero, Vec3.scale_one,
    add_zero, zero_add]

/-- Witness for C8 on the grid 2x3x4 at cell (1,2,3) of a concrete
nonconstant field. -/
theorem lerp_get_integer_exact_witness :
    lerp_get
        (fun b : Bound3 2 3 4 => ⟨(b.x : ℕ), (b.y : ℕ), (b.z : ℕ)⟩)
        ⟨(((⟨1, by omega⟩ : Fin 2) : ℕ) : ℚ), (((⟨2, by omega⟩ : Fin 3) : ℕ) : ℚ),
         (((⟨3, by omega⟩ : Fin 4) : ℕ) : ℚ)⟩ =
      (fun b : Bound3 2 3 4 => (⟨(b.x : ℕ), (b.y : ℕ), (b.z : ℕ)⟩ : Vec3))
        ⟨⟨1, by omega⟩, ⟨2, by omega⟩, ⟨3, by omega⟩⟩ :=
  lerp_get_integer_exact _ ⟨⟨1, by omega⟩, ⟨2, by omega⟩, ⟨3, by omega⟩⟩

/-- C9: after `stream_particles` every particle position component lies in
`[0, X) x [0, Y) x [0, Z)` — never negative and never at or beyond the axis
bound; and in particular a particle at position `(X - 0.1, 0, 0)` with
velocity `(1, 0, 0)`, zero sampled flow and no velocity decay advects to
position `(0.9, 0, 0)`, i.e. `x = 0.9 (mod X)`. -/
theorem stream_particles_periodic_wrap {X Y Z : ℕ} [NeZero X] [NeZero Y] [NeZero Z]
    (s : Simulation X Y Z) :
    (∀ p ∈ s.stream_particles.particles,
        (0 ≤ p.position.x ∧ p.position.x < X) ∧
        (0 ≤ p.position.y ∧ p.position.y < Y) ∧
        (0 ≤ p.position.z ∧ p.position.z < Z)) ∧
    (s.velocity = (fun _ => Vec3.zero) →
      s.constants.particle_velocity_decay = 1 →
      s.particles = [{ position := ⟨(X : ℚ) - 1/10, 0, 0⟩, velocity := ⟨1, 0, 0⟩ }] →
      1 ≤ X →
      s.stream_particles.particles =
        [{ position := ⟨9/10, 0, 0⟩, velocity := ⟨1, 0, 0⟩ }]) := by
  have hX : (0 : ℚ) < X := by exact_mod_cast Nat.pos_of_ne_zero (NeZero.ne X)
  have hY : (0 : ℚ) < Y := by exact_mod_cast Nat.pos_of_ne_zero (NeZero.ne Y)
  have hZ : (0 : ℚ) < Z := by exact_mod_cast Nat.pos_of_ne_zero (NeZero.ne Z)
  constructor
  · intro p hp
    rcases List.mem_map.mp hp with ⟨q, _, rfl⟩
    exact ⟨⟨remEuclidQ_nonneg _ hX, remEuclidQ_lt _ hX⟩,
      ⟨remEuclidQ_nonneg _ hY, remEuclidQ_lt _ hY⟩,
      ⟨remEuclidQ_nonneg _ hZ, remEuclidQ_lt _ hZ⟩⟩
  · intro hvel hdecay hparts hX1
    show List.map _ s.particles = _
    rw [hparts, List.map_cons, List.map_nil, hvel]
    rw [lerp_get_zero]
    congr 1
    rw [hdecay]
    have hvel' : (Vec3.scale 1 (⟨1, 0, 0⟩ : Vec3)).add (Vec3.zero.divScalar
        s.constants.particle_mass) = (⟨1, 0, 0⟩ : Vec3) := by
      simp [Vec3.scale, Vec3.add, Vec3.divScalar, Vec3.zero]
    have hpos : ((⟨(X : ℚ) - 1/10, 0, 0⟩ : Vec3).add ⟨1, 0, 0⟩).wrap (X, Y, Z) =
        (⟨9/10, 0, 0⟩ : Vec3) := by
      show (⟨remEuclidQ ((X : ℚ) - 1/10 + 1) X,
            remEuclidQ ((0 : ℚ) + 0) Y, remEuclidQ ((0 : ℚ) + 0) Z⟩ : Vec3) = _
      have harg : (X : ℚ) - 1/10 + 1 = (X : ℚ) + 9/10 := by ring
      rw [harg, remEuclidQ_nine_tenths hX1]
      norm_num [remEuclidQ_zero]
    simp only [hvel', hpos]

/-- Witness for C9 at the concrete 1x1x1 grid with no decay: the particle
starting at `(1 - 0.1, 0, 0)` with velocity `(1, 0, 0)` advects to
`(0.9, 0, 0)`. -/
theorem stream_particles_periodic_wrap_witness :
    (Simulation.new 1 1 1
        { time_relaxation_constant := 5/4, speed_of_sound := 4/7,
          particle_mass := 1, particle_velocity_decay := 1 }
        [{ position := ⟨((1 : ℕ) : ℚ) - 1/10, 0, 0⟩,
           velocity := ⟨1, 0, 0⟩ }]).stream_particles.particles =
      [{ position := ⟨9/10, 0, 0⟩, velocity := ⟨1, 0, 0⟩ }] :=
  (stream_particles_periodic_wrap _).2 rfl rfl rfl (le_refl 1)

end LBM
